import Mathlib

/-!
Verification of the rust_hdl source-position/document model
(`vhdl_parser/src/source.rs`) and the assignment semantic analyzer
(`vhdl_lang/src/analysis/assignment.rs`) against their specification.

The Rust code is shallowly embedded: strings are `List Char`, machine
integers (`u64`) are `Nat` (the source only uses saturating subtraction and
small additions, so no wrap-around is observable), and the fatal-error
channel (`FatalNullResult`) is `Except Fatal Unit`.
-/

/-! ## Position, Range (source.rs lines 169-219) -/

/-- `Position` from source.rs: zero-based line and character, `u64` fields. -/
structure Position where
  line : Nat
  character : Nat
deriving DecidableEq, Repr

/-- The derived `Ord` on the Rust `Position` struct: lexicographic by
declaration order, first `line` then `character`. -/
def posLt (a b : Position) : Prop :=
  a.line < b.line ∨ (a.line = b.line ∧ a.character < b.character)

instance (a b : Position) : Decidable (posLt a b) := by
  unfold posLt; infer_instance

/-- Non-strict companion of `posLt` (the derived `<=`). -/
def posLe (a b : Position) : Prop := posLt a b ∨ a = b

instance (a b : Position) : Decidable (posLe a b) := by
  unfold posLe; infer_instance

/-- Rust `std::cmp::min`: returns the first argument on ties. -/
def posMin (a b : Position) : Position := if posLt b a then b else a

/-- Rust `std::cmp::max`: returns the second argument on ties. -/
def posMax (a b : Position) : Position := if posLt b a then a else b

/-- `Range` from source.rs: half-open span between two positions. -/
structure Range where
  start : Position
  «end» : Position
deriving DecidableEq, Repr

/-! ## Contents (external collaborator, contents.rs is not part of the
analyzed sources) -/

/-- Modelled from the spec: `Contents` (defined in contents.rs, which is not
among the analyzed sources) "owns the line-indexed decoded text of one source
unit; supports line lookup and range-bounded replacement".  Each stored line
keeps its terminating newline character, which is why the rendering code in
source.rs strips `'\n'` with `trim_matches` before display. -/
structure Contents where
  lines : List (List Char)
deriving DecidableEq, Repr

/-- Modelled from the spec: split decoded text into its lines, each line
ending with its `'\n'` (a trailing fragment without a newline is also a
line; empty text has no lines). -/
def splitLinesAux : List Char → List Char → List (List Char)
  | [], acc => if acc.isEmpty then [] else [acc.reverse]
  | c :: rest, acc =>
    if c = '\n' then (c :: acc).reverse :: splitLinesAux rest []
    else splitLinesAux rest (c :: acc)

/-- Modelled from the spec: build the line table of a piece of text. -/
def splitLines (t : List Char) : List (List Char) := splitLinesAux t []

/-- Modelled from the spec: `Contents::from_latin1` — decode text into its
line table. -/
def Contents.fromText (t : List Char) : Contents := ⟨splitLines t⟩

/-- Modelled from the spec: `Contents::get_line` — line lookup by index. -/
def Contents.get_line (c : Contents) (lineno : Nat) : Option (List Char) :=
  c.lines.get? lineno

/-- Flat text of the contents (concatenation of the stored lines). -/
def Contents.toText (c : Contents) : List Char := c.lines.flatten

/-- Character offset of a position inside the flat text. -/
def Contents.posIndex (c : Contents) (p : Position) : Nat :=
  ((c.lines.take p.line).flatten).length + p.character

/-- Modelled from the spec: `Contents::change` replaces exactly the given
sub-span and recomputes the line table from the new text (the spec requires
the table to be "recomputed, not patched in place"). -/
def Contents.change (c : Contents) (r : Range) (newText : List Char) : Contents :=
  let t := c.toText
  Contents.fromText
    (t.take (c.posIndex r.start) ++ newText ++ t.drop (c.posIndex r.«end»))

/-! ## FileId and Source (source.rs lines 20-167) -/

/-- `FileId` from source.rs: a file name together with the precomputed hash
of that name.  The hash function itself (`DefaultHasher`) lives in the Rust
standard library, so the development is parameterized over it. -/
structure FileId where
  name : String
  hash : Nat
deriving DecidableEq, Repr

/-- `FileId::new`: store the name and the hash of the name. -/
def FileId.new (hashFn : String → Nat) (name : String) : FileId :=
  ⟨name, hashFn name⟩

/-- `PartialEq for FileId` (source.rs lines 33-42): compare hashes first as a
shortcut, then names. -/
def FileId.eq (a b : FileId) : Bool :=
  if a.hash == b.hash then a.name == b.name else false

/-- `Source` from source.rs: an identity plus (lock-guarded, here modelled as
a plain value) contents. -/
structure Source where
  file_id : FileId
  contents : Contents
deriving DecidableEq, Repr

/-- `PartialEq for Source` (source.rs lines 102-106): identity comparison
only, the contents are ignored. -/
def Source.eq (a b : Source) : Bool := FileId.eq a.file_id b.file_id

/-- `Hash for Source` (source.rs lines 110-114): hashes exactly the
precomputed file-name hash. -/
def Source.hashVal (a : Source) : Nat := a.file_id.hash

/-- `Source::inline` (source.rs lines 117-121 and 63-68). -/
def Source.inline (hashFn : String → Nat) (name : String) (text : List Char) :
    Source :=
  ⟨FileId.new hashFn name, Contents.fromText text⟩

/-- `Source::change` (source.rs lines 159-167): with a range, a range-bounded
replacement; without one, the whole contents are replaced. -/
def Source.change (s : Source) (r : Option Range) (content : List Char) :
    Source :=
  match r with
  | some rng => { s with contents := s.contents.change rng content }
  | none => { s with contents := Contents.fromText content }

/-! ## SrcPos (source.rs lines 221-490) -/

/-- `SrcPos` from source.rs: a source handle plus a range. -/
structure SrcPos where
  source : Source
  range : Range
deriving DecidableEq, Repr

/-- The derived `PartialEq for SrcPos`, which uses the custom `Source`
equality (by identity) together with structural range equality. -/
def SrcPos.eq (a b : SrcPos) : Bool :=
  Source.eq a.source b.source && a.range == b.range

/-- `SrcPos::combine_into` (source.rs lines 456-469): smallest span covering
both inputs; the source is taken from `self` and is debug-asserted to equal
the other source. -/
def SrcPos.combine_into (a : SrcPos) (b : SrcPos) : SrcPos :=
  ⟨a.source, ⟨posMin a.range.start b.range.start,
              posMax a.range.«end» b.range.«end»⟩⟩

/-- `SrcPos::combine` (source.rs lines 487-489). -/
def SrcPos.combine (a : SrcPos) (b : SrcPos) : SrcPos := a.combine_into b

/-! ## Diagnostic rendering (source.rs lines 300-454) -/

/-- The `for lineno in start..=end` loop body of `get_line_context`: the
existing lines among `low, low+1, ..., low+cnt-1`, paired with their line
numbers, in order. -/
def windowLines (contents : Contents) (low cnt : Nat) :
    List (Nat × List Char) :=
  (List.range cnt).filterMap fun i =>
    match contents.get_line (low + i) with
    | some l => some (low + i, l)
    | none => none

/-- `SrcPos::get_line_context` (source.rs lines 307-327): collect the window
of existing lines from `start.line` minus the context (saturating at zero) to
`end.line` plus the context; if none of those lines exists, fall back to a
single synthetic empty line at the span's start line. -/
def SrcPos.get_line_context (sp : SrcPos) (context_lines : Nat)
    (contents : Contents) : List (Nat × List Char) :=
  let start := sp.range.start.line - context_lines
  let stop := sp.range.«end».line + context_lines
  let lines := windowLines contents start (stop + 1 - start)
  if lines.isEmpty then [(sp.range.start.line, [])] else lines

/-- `SrcPos::visual_width` (source.rs lines 335-341): a tab renders as four
columns, everything else as one. -/
def visualWidth (c : Char) : Nat := if c = '\t' then 4 else 1

/-- The character loop of `SrcPos::underline` (source.rs lines 360-369):
walks the line, emitting spaces before the span and `~` inside it (each as
wide as the character), and breaks at the first position past the span's
end.  Returns the emitted characters and the final column counter. -/
def underlineLoop (rng : Range) (lineno : Nat) :
    List Char → Nat → List Char × Nat
  | [], col => ([], col)
  | ch :: rest, col =>
    if posLt ⟨lineno, col⟩ rng.start then
      let r := underlineLoop rng lineno rest (col + 1)
      (List.replicate (visualWidth ch) ' ' ++ r.1, r.2)
    else if posLt ⟨lineno, col⟩ rng.«end» then
      let r := underlineLoop rng lineno rest (col + 1)
      (List.replicate (visualWidth ch) '~' ++ r.1, r.2)
    else ([], col)

/-- `SrcPos::underline` (source.rs lines 344-380): line-number padding, the
`  |  ` gutter, the per-character loop, then — on the span's final line —
width-one `~` characters until the end column is reached, and a newline.
On the final line the trailing `while pos < end` condition reduces to a
column comparison, so it contributes `end.character - col` tildes. -/
def underlineRow (rng : Range) (linenoLen : Nat) (lineno : Nat)
    (line : List Char) : List Char :=
  let r := underlineLoop rng lineno line 0
  List.replicate linenoLen ' ' ++ "  |  ".toList ++ r.1 ++
    (if lineno = rng.«end».line
      then List.replicate (rng.«end».character - r.2) '~' else []) ++
    ['\n']

/-- `str::trim_matches('\n')`: strip newline characters from both ends. -/
def trimNl (l : List Char) : List Char :=
  ((l.dropWhile (· = '\n')).reverse.dropWhile (· = '\n')).reverse

/-- `char::is_whitespace` restricted to the Latin-1 range (the decoded lines
only contain such characters). -/
def isRustWhitespace (c : Char) : Bool :=
  c = ' ' || c = '\t' || c = '\n' || c = '\x0b' || c = '\x0c' || c = '\r' ||
    c = '\x85' || c = '\xa0'

/-- `str::trim_end`: strip trailing whitespace. -/
def trimEnd (l : List Char) : List Char :=
  (l.reverse.dropWhile isRustWhitespace).reverse

/-- The display loop of `code_context_from_contents` (source.rs lines
410-416): the trailing-whitespace-trimmed line with each tab replaced by
four spaces. -/
def displayBody (line : List Char) : List Char :=
  (trimEnd line).flatMap fun ch =>
    if ch = '\t' then List.replicate 4 ' ' else [ch]

/-- Decimal rendering of a line number, as `u64::to_string`. -/
def natStr (n : Nat) : List Char := (Nat.repr n).toList

/-- `PadStr::pad_to_width_with_alignment(_, Alignment::Right)`: left-pad
with spaces up to the width (a longer string is left unchanged). -/
def padLeft (width : Nat) (s : List Char) : List Char :=
  List.replicate (width - s.length) ' ' ++ s

/-- One iteration of the rendering loop of `code_context_from_contents`
(source.rs lines 396-422): the newline-trimmed line is displayed behind a
right-aligned line number with an ` --> ` marker when the line intersects
the span (and a plain `  |  ` gutter otherwise), followed — for
intersecting lines — by the underline row built from the same
newline-trimmed (but not whitespace-trimmed) line. -/
def renderLine (rng : Range) (linenoLen : Nat) (entry : Nat × List Char) :
    List Char :=
  let lineno := entry.1
  let line := trimNl entry.2
  let ov : Bool := rng.start.line ≤ lineno && lineno ≤ rng.«end».line
  padLeft linenoLen (natStr (lineno + 1)) ++
    (if ov then " --> ".toList else "  |  ".toList) ++
    displayBody line ++ ['\n'] ++
    (if ov then underlineRow rng linenoLen lineno line else [])

/-- `SrcPos::code_context_from_contents` (source.rs lines 382-425): the
line-number width is computed from the span's start line plus the context,
1-indexed; then every window line is rendered in order. -/
def SrcPos.code_context_from_contents (sp : SrcPos) (contents : Contents)
    (context_lines : Nat) : Nat × List Char :=
  let lines := sp.get_line_context context_lines contents
  let linenoLen := (natStr (sp.range.start.line + context_lines + 1)).length
  (linenoLen, (lines.map (renderLine sp.range linenoLen)).flatten)

/-- `SrcPos::LINE_CONTEXT` (source.rs line 301). -/
def LINE_CONTEXT : Nat := 2

/-- `SrcPos::code_context` (source.rs lines 428-435). -/
def SrcPos.code_context (sp : SrcPos) : List Char :=
  (sp.code_context_from_contents sp.source.contents LINE_CONTEXT).2

/-! ## Claim-side rendering description (for the refinement claim C10) -/

/-- Follows the claim's words: the underline marker for the character at
absolute column `col` — padding spaces before the span start, `~` inside
the span — with the character's visual width (a tab counts as 4 columns). -/
def specColMark (rng : Range) (lineno col : Nat) (ch : Char) : List Char :=
  if posLt ⟨lineno, col⟩ rng.start then List.replicate (visualWidth ch) ' '
  else List.replicate (visualWidth ch) '~'

/-- Follows the claim's words: one marker group per character of the line,
starting at absolute column `col`. -/
def specPerChar (rng : Range) (lineno : Nat) :
    List Char → Nat → List Char
  | [], _ => []
  | ch :: rest, col =>
    specColMark rng lineno col ch ++ specPerChar rng lineno rest (col + 1)

/-- Follows the claim's words: the underline body is emitted per character
of the untrimmed line (tab counted as 4 columns) for every column up to the
span's end — on the span's final line only up to the end column — and on
the span's final line one additional width-one `~` per remaining character
position past the end of the line's text until the span's end column is
reached, so the underline can be longer than the displayed line. -/
def specUnderlineBody (rng : Range) (lineno : Nat) (line : List Char) :
    List Char :=
  let cut := if lineno < rng.«end».line then line
    else if lineno = rng.«end».line then line.take rng.«end».character
    else []
  specPerChar rng lineno cut 0 ++
    (if lineno = rng.«end».line
      then List.replicate (rng.«end».character - line.length) '~' else [])

/-! ## The assignment analyzer (vhdl_lang/src/analysis/assignment.rs)

The analyzer's collaborators (`resolve_target`, `analyze_expression`,
`analyze_expression_with_target_type`, `analyze_expression_pos`,
`analyze_choices`, spec section 6) are external to the analyzed sources, so
they are modelled as an oracle: pure functions returning the diagnostics
they emit together with their `FatalNullResult`.  The analyzer itself is
embedded as a function that additionally records the trace of collaborator
calls it makes, in order. -/

/-- Expressions are opaque to the assignment analyzer; identify them by
name. -/
abbrev Expression := String

/-- Resolved types (`TypeEnt`) are opaque to the assignment analyzer. -/
abbrev TypeEnt := String

/-- Assignment targets are opaque: they are only handed to
`resolve_target`. -/
abbrev TargetAst := String

/-- A choice pattern of a selected assignment, opaque to the analyzer. -/
abbrev Choice := String

/-- A recorded diagnostic (opaque payload). -/
abbrev Diagnostic := String

/-- The fatal error of `FatalNullResult` (a `CircularDependencyError`
carrying no information the analyzer inspects). -/
abbrev Fatal := Unit

/-- `AssignmentType` from analysis/target.rs (consumed interface): signal
versus variable assignment, only forwarded to `resolve_target`. -/
inductive AssignmentType where
  | signal : AssignmentType
  | var : AssignmentType
deriving DecidableEq, Repr

/-- `Conditional<T>` from the AST: one `when` arm. -/
structure ConditionalArm (T : Type) where
  condition : Expression
  item : T
deriving DecidableEq, Repr

/-- `Conditionals<T>` from the AST. -/
structure Conditionals (T : Type) where
  conditionals : List (ConditionalArm T)
  else_item : Option T
deriving DecidableEq, Repr

/-- `Alternative<T>` from the AST: one alternative of a selected
assignment. -/
structure AltArm (T : Type) where
  choices : List Choice
  item : T
deriving DecidableEq, Repr

/-- `Selection<T>` from the AST. -/
structure Selection (T : Type) where
  expression : Expression
  alternatives : List (AltArm T)
deriving DecidableEq, Repr

/-- `AssignmentRightHand<T>` from the AST: the three right-hand-side
forms. -/
inductive AssignmentRightHand (T : Type) where
  | Simple : T → AssignmentRightHand T
  | Conditional : Conditionals T → AssignmentRightHand T
  | Selected : Selection T → AssignmentRightHand T
deriving DecidableEq, Repr

/-- `WaveformElement` from the AST: a value and an optional delay. -/
structure WaveformElement where
  value : Expression
  after : Option Expression
deriving DecidableEq, Repr

/-- `Waveform` from the AST. -/
inductive Waveform where
  | Elements : List WaveformElement → Waveform
  | Unaffected : Waveform
deriving DecidableEq, Repr

/-- One collaborator call made by the analyzer:
`withTarget t e` is `analyze_expression_with_target_type(t, e)`,
`plain e` is `analyze_expression(e)`,
`plainPos e` is `analyze_expression_pos(e)` (untyped item analysis), and
`choice cs` is `analyze_choices(cs)`. -/
inductive Event where
  | withTarget : TypeEnt → Expression → Event
  | plain : Expression → Event
  | plainPos : Expression → Event
  | choice : List Choice → Event
deriving DecidableEq, Repr

/-- The external collaborators of the analyzer (spec section 6), as pure
functions from their argument to the diagnostics they push and their
result. -/
structure Oracle where
  resolve_target :
    TargetAst → AssignmentType → List Diagnostic × Except Fatal (Option TypeEnt)
  analyze_expression : Expression → List Diagnostic × Except Fatal Unit
  analyze_expression_with_target_type :
    TypeEnt → Expression → List Diagnostic × Except Fatal Unit
  analyze_expression_pos : Expression → List Diagnostic × Except Fatal Unit
  analyze_choices : List Choice → List Diagnostic × Except Fatal Unit

/-- What the oracle answers for a recorded event (the oracle is a pure
function, so the outcome of a call is determined by the event). -/
def Event.outcome (o : Oracle) : Event → Except Fatal Unit
  | .withTarget t e => (o.analyze_expression_with_target_type t e).2
  | .plain e => (o.analyze_expression e).2
  | .plainPos e => (o.analyze_expression_pos e).2
  | .choice cs => (o.analyze_choices cs).2

/-- The observable behaviour of one analyzer run: the calls made (in
order), the diagnostics pushed (in order), and the `FatalNullResult`. -/
abbrev Run := List Event × List Diagnostic × Except Fatal Unit

/-- Trace of collaborator calls of a run. -/
def Run.trace (r : Run) : List Event := r.1

/-- Diagnostics pushed during a run. -/
def Run.diags (r : Run) : List Diagnostic := r.2.1

/-- The `FatalNullResult` of a run. -/
def Run.result (r : Run) : Except Fatal Unit := r.2.2

/-- A run that does nothing (`Ok(())` without calls or diagnostics). -/
def okRun : Run := ([], [], Except.ok ())

/-- One collaborator call: record the event, its diagnostics and result. -/
def step (ev : Event) (out : List Diagnostic × Except Fatal Unit) : Run :=
  ([ev], out.1, out.2)

/-- Sequencing with the `?` operator: the second run happens only when the
first returned `Ok` (the fatal error short-circuits, the diagnostics of the
aborted remainder are never pushed). -/
def seqRun (x y : Run) : Run :=
  match x.result with
  | Except.ok _ => (x.trace ++ y.trace, x.diags ++ y.diags, y.result)
  | Except.error f => (x.trace, x.diags, Except.error f)

/-- Sequencing a list of runs (a `for` loop of fallible bodies). -/
def runAll : List Run → Run
  | [] => okRun
  | r :: rs => seqRun r (runAll rs)

/-- `AnalyzeContext::analyze_expression_for_target` (assignment.rs lines
122-141): with a target type, target-typed expression analysis; without
one, plain positional expression analysis. -/
def analyze_expression_for_target (o : Oracle) (ttyp : Option TypeEnt)
    (expr : Expression) : Run :=
  match ttyp with
  | some t => step (.withTarget t expr)
      (o.analyze_expression_with_target_type t expr)
  | none => step (.plainPos expr) (o.analyze_expression_pos expr)

/-- A plain `analyze_expression` call. -/
def callPlain (o : Oracle) (e : Expression) : Run :=
  step (.plain e) (o.analyze_expression e)

/-- An `analyze_choices` call. -/
def callChoices (o : Oracle) (cs : List Choice) : Run :=
  step (.choice cs) (o.analyze_choices cs)

/-- The right-hand-side dispatch of `analyze_expr_assignment`
(assignment.rs lines 26-55): `Simple` analyzes its expression against the
target type; `Conditional` analyzes, per arm in order, the item against the
target type and then the condition plainly, then the else item against the
target type; `Selected` analyzes the selector plainly, then per alternative
in order the item against the target type and then its choices. -/
def exprRhsRun (o : Oracle) (ttyp : Option TypeEnt) :
    AssignmentRightHand Expression → Run
  | .Simple expr => analyze_expression_for_target o ttyp expr
  | .Conditional c =>
    seqRun
      (runAll (c.conditionals.map fun arm =>
        seqRun (analyze_expression_for_target o ttyp arm.item)
          (callPlain o arm.condition)))
      (match c.else_item with
        | some expr => analyze_expression_for_target o ttyp expr
        | none => okRun)
  | .Selected s =>
    seqRun (callPlain o s.expression)
      (runAll (s.alternatives.map fun alt =>
        seqRun (analyze_expression_for_target o ttyp alt.item)
          (callChoices o alt.choices)))

/-- `AnalyzeContext::analyze_expr_assignment` (assignment.rs lines 17-57):
resolve the target (fatal failure propagates, its diagnostics always
precede the rest), then dispatch on the right-hand side with the resolved
optional target type. -/
def analyze_expr_assignment (o : Oracle) (target : TargetAst)
    (assignment_type : AssignmentType)
    (rhs : AssignmentRightHand Expression) : Run :=
  let res := o.resolve_target target assignment_type
  match res.2 with
  | Except.error f => ([], res.1, Except.error f)
  | Except.ok ttyp =>
    let body := exprRhsRun o ttyp rhs
    (body.trace, res.1 ++ body.diags, body.result)

/-- `AnalyzeContext::analyze_waveform` (assignment.rs lines 101-120): each
element's value is analyzed plainly, then its delay (when present) is
analyzed plainly; `Unaffected` does nothing. -/
def analyze_waveform (o : Oracle) : Waveform → Run
  | .Elements elems =>
    runAll (elems.map fun el =>
      seqRun (callPlain o el.value)
        (match el.after with
          | some e => callPlain o e
          | none => okRun))
  | .Unaffected => okRun

/-- The right-hand-side dispatch of `analyze_waveform_assignment`
(assignment.rs lines 68-97): same shape as the expression dispatch, but
every item is a waveform analyzed by `analyze_waveform` — without any
target type. -/
def wavfRhsRun (o : Oracle) : AssignmentRightHand Waveform → Run
  | .Simple w => analyze_waveform o w
  | .Conditional c =>
    seqRun
      (runAll (c.conditionals.map fun arm =>
        seqRun (analyze_waveform o arm.item) (callPlain o arm.condition)))
      (match c.else_item with
        | some w => analyze_waveform o w
        | none => okRun)
  | .Selected s =>
    seqRun (callPlain o s.expression)
      (runAll (s.alternatives.map fun alt =>
        seqRun (analyze_waveform o alt.item) (callChoices o alt.choices)))

/-- `AnalyzeContext::analyze_waveform_assignment` (assignment.rs lines
59-99): resolve the target — note that the resolved type is discarded by
the source (`self.resolve_target(..)?;` without binding) — then dispatch on
the right-hand side, analyzing every waveform without a target type. -/
def analyze_waveform_assignment (o : Oracle) (target : TargetAst)
    (assignment_type : AssignmentType)
    (rhs : AssignmentRightHand Waveform) : Run :=
  let res := o.resolve_target target assignment_type
  match res.2 with
  | Except.error f => ([], res.1, Except.error f)
  | Except.ok _ =>
    let body := wavfRhsRun o rhs
    (body.trace, res.1 ++ body.diags, body.result)

/-! ## Claim-side definitions for the analyzer -/

/-- The item-analysis event the code produces for one alternative under the
resolved optional target type. -/
def targetItemEvent (ttyp : Option TypeEnt) (e : Expression) : Event :=
  match ttyp with
  | some t => .withTarget t e
  | none => .plainPos e

/-- All right-hand-side alternatives of an assignment (the simple payload,
every conditional arm's item plus the else item, every selected
alternative's item). -/
def AssignmentRightHand.items {T : Type} : AssignmentRightHand T → List T
  | .Simple x => [x]
  | .Conditional c =>
    c.conditionals.map (·.item) ++
      (match c.else_item with | some x => [x] | none => [])
  | .Selected s => s.alternatives.map (·.item)

/-- Follows the specification's description of the analyzer's visitation
order (spec section 4.2, step 2): `Simple` — the one payload against the
target type; `Conditional` — for every `(condition, item)` pair in source
order, the item against the target type then the condition untargeted, then
the else item against the target type when present; `Selected` — the
selector untargeted first, then for every alternative in source order its
item against the target type then its choices. -/
def specExprVisitOrder (ttyp : Option TypeEnt) :
    AssignmentRightHand Expression → List Event
  | .Simple expr => [targetItemEvent ttyp expr]
  | .Conditional c =>
    (c.conditionals.flatMap fun arm =>
      [targetItemEvent ttyp arm.item, .plain arm.condition]) ++
      (match c.else_item with
        | some expr => [targetItemEvent ttyp expr]
        | none => [])
  | .Selected s =>
    .plain s.expression ::
      s.alternatives.flatMap fun alt =>
        [targetItemEvent ttyp alt.item, .choice alt.choices]

/-- The calls `analyze_waveform` makes for one waveform, per the code:
plain analysis of each element's value then of its delay when present. -/
def waveformEvents : Waveform → List Event
  | .Elements elems =>
    elems.flatMap fun el =>
      .plain el.value ::
        (match el.after with | some e => [.plain e] | none => [])
  | .Unaffected => []

/-- The full call order of the waveform-assignment dispatch, per the
code. -/
def wavfVisitOrder : AssignmentRightHand Waveform → List Event
  | .Simple w => waveformEvents w
  | .Conditional c =>
    (c.conditionals.flatMap fun arm =>
      waveformEvents arm.item ++ [.plain arm.condition]) ++
      (match c.else_item with
        | some w => waveformEvents w
        | none => [])
  | .Selected s =>
    .plain s.expression ::
      s.alternatives.flatMap fun alt =>
        waveformEvents alt.item ++ [.choice alt.choices]

/-- An event is one of the untargeted analysis calls (anything but
`analyze_expression_with_target_type`). -/
def Event.isUntargeted : Event → Bool
  | .withTarget _ _ => false
  | _ => true

/-- Number of target-typed expression-analysis calls in a trace. -/
def countTargeted (tr : List Event) : Nat :=
  (tr.filter fun ev => !ev.isUntargeted).length

/-- Number of plain (`analyze_expression`) calls in a trace. -/
def countPlain (tr : List Event) : Nat :=
  (tr.filter fun ev =>
    match ev with | .plain _ => true | _ => false).length

/-- An oracle whose target resolution yields the type `bit` and whose
sub-analyses all succeed without diagnostics. -/
def okOracle : Oracle where
  resolve_target := fun _ _ => ([], Except.ok (some "bit"))
  analyze_expression := fun _ => ([], Except.ok ())
  analyze_expression_with_target_type := fun _ _ => ([], Except.ok ())
  analyze_expression_pos := fun _ => ([], Except.ok ())
  analyze_choices := fun _ => ([], Except.ok ())

/-- The right-hand side of the concrete scenario
`x <= a when cond1 else b when cond2 else c;` — a conditional waveform
assignment whose three waveforms are the single-element waveforms `a`, `b`
and `c` (no delays). -/
def scenarioWavfRhs : AssignmentRightHand Waveform :=
  .Conditional
    { conditionals :=
        [⟨"cond1", .Elements [⟨"a", none⟩]⟩,
         ⟨"cond2", .Elements [⟨"b", none⟩]⟩],
      else_item := some (.Elements [⟨"c", none⟩]) }

/-- The expression-assignment analogue of the scenario, used to exercise
the expression analyzer on concrete input. -/
def scenarioExprRhs : AssignmentRightHand Expression :=
  .Conditional
    { conditionals := [⟨"cond1", "a"⟩, ⟨"cond2", "b"⟩],
      else_item := some "c" }

/-- Result agreement between two oracles: they answer every call with the
same `FatalNullResult`s, though possibly different diagnostics. -/
def agreeOnResults (o₁ o₂ : Oracle) : Prop :=
  (∀ tgt atyp, (o₁.resolve_target tgt atyp).2
    = (o₂.resolve_target tgt atyp).2) ∧
  (∀ e, (o₁.analyze_expression e).2 = (o₂.analyze_expression e).2) ∧
  (∀ t e, (o₁.analyze_expression_with_target_type t e).2
    = (o₂.analyze_expression_with_target_type t e).2) ∧
  (∀ e, (o₁.analyze_expression_pos e).2 = (o₂.analyze_expression_pos e).2) ∧
  (∀ cs, (o₁.analyze_choices cs).2 = (o₂.analyze_choices cs).2)

/-- Target resolution did not fail fatally. -/
def resolveOk (o : Oracle) (tgt : TargetAst) (atyp : AssignmentType) : Prop :=
  ∃ ttyp, (o.resolve_target tgt atyp).2 = Except.ok ttyp

/-- The compositional invariant of a run against its intended full call
list: the calls made are among the intended ones, a successful run made
exactly the intended calls, and the run succeeds exactly when every call it
made succeeded. -/
def Covers (o : Oracle) (A : List Event) (r : Run) : Prop :=
  r.trace ⊆ A ∧
  (r.result = Except.ok () → r.trace = A) ∧
  (r.result = Except.ok () ↔ ∀ ev ∈ r.trace, ev.outcome o = Except.ok ())

/-- Observable equivalence of two runs up to diagnostics. -/
def REq (x y : Run) : Prop := x.trace = y.trace ∧ x.result = y.result

/-! ## Order lemmas for Position -/

theorem posLt_asymm {a b : Position} (h : posLt a b) : ¬ posLt b a := by
  rcases h with h | ⟨h1, h2⟩ <;> intro hc <;> rcases hc with hc | ⟨hc1, hc2⟩ <;>
    omega

theorem posLt_total {a b : Position} (h1 : ¬ posLt a b) (h2 : ¬ posLt b a) :
    a = b := by
  unfold posLt at h1 h2
  cases a; cases b
  simp only [not_or, not_and, not_lt] at h1 h2
  simp only [Position.mk.injEq]
  omega

theorem posMin_comm (a b : Position) : posMin a b = posMin b a := by
  unfold posMin
  by_cases h1 : posLt b a
  · simp [h1, posLt_asymm h1]
  · by_cases h2 : posLt a b
    · simp [h1, h2]
    · simp [h1, h2, posLt_total h2 h1]

theorem posMax_comm (a b : Position) : posMax a b = posMax b a := by
  unfold posMax
  by_cases h1 : posLt b a
  · simp [h1, posLt_asymm h1]
  · by_cases h2 : posLt a b
    · simp [h1, h2]
    · simp [h1, h2, posLt_total h2 h1]

theorem posMin_le_left (a b : Position) : posLe (posMin a b) a := by
  unfold posMin
  by_cases h : posLt b a
  · simp [h, posLe]
  · simp [h, posLe]

theorem posMin_le_right (a b : Position) : posLe (posMin a b) b := by
  unfold posMin
  by_cases h : posLt b a
  · simp [h, posLe]
  · by_cases h2 : posLt a b
    · simp [h, posLe, h2]
    · simp [h, posLe, posLt_total h2 h]

theorem posMax_ge_left (a b : Position) : posLe a (posMax a b) := by
  unfold posMax
  by_cases h : posLt b a
  · simp [h, posLe]
  · by_cases h2 : posLt a b
    · simp [h, posLe, h2]
    · simp [h, posLe, posLt_total h2 h]

theorem posMax_ge_right (a b : Position) : posLe b (posMax a b) := by
  unfold posMax
  by_cases h : posLt b a
  · simp [h, posLe]
  · simp [h, posLe]

theorem posMin_eq_or (a b : Position) : posMin a b = a ∨ posMin a b = b := by
  unfold posMin; by_cases h : posLt b a <;> simp [h]

theorem posMax_eq_or (a b : Position) : posMax a b = a ∨ posMax a b = b := by
  unfold posMax; by_cases h : posLt b a <;> simp [h]

/-! ## C4: combine is order-independent and computes the extremal span -/

/-- C4: for two `SrcPos` values on the same source (the debug-checked
precondition of `combine_into`), `combine` is order-independent (up to the
code's own `SrcPos` equality, which compares sources by identity), and the
result's start is the least of the two starts and its end the greatest of
the two ends under the lexicographic `(line, character)` order. -/
theorem combine_comm_and_extremal (a b : SrcPos)
    (h : Source.eq a.source b.source = true) :
    SrcPos.eq (a.combine b) (b.combine a) = true ∧
    (a.combine b).range.start = posMin a.range.start b.range.start ∧
    (a.combine b).range.«end» = posMax a.range.«end» b.range.«end» ∧
    posLe (a.combine b).range.start a.range.start ∧
    posLe (a.combine b).range.start b.range.start ∧
    ((a.combine b).range.start = a.range.start ∨
     (a.combine b).range.start = b.range.start) ∧
    posLe a.range.«end» (a.combine b).range.«end» ∧
    posLe b.range.«end» (a.combine b).range.«end» ∧
    ((a.combine b).range.«end» = a.range.«end» ∨
     (a.combine b).range.«end» = b.range.«end») := by
  refine ⟨?_, rfl, rfl, posMin_le_left _ _, posMin_le_right _ _,
    posMin_eq_or _ _, posMax_ge_left _ _, posMax_ge_right _ _,
    posMax_eq_or _ _⟩
  unfold SrcPos.eq SrcPos.combine SrcPos.combine_into
  simp only [Bool.and_eq_true]
  constructor
  · exact h
  · simp [posMin_comm a.range.start b.range.start,
      posMax_comm a.range.«end» b.range.«end»]

/-- Witness for C4 at concrete spans on a shared source. -/
theorem combine_comm_and_extremal_witness :
    SrcPos.eq
      (SrcPos.combine
        ⟨Source.inline String.length "f.vhd" "hello world".toList,
          ⟨⟨0, 0⟩, ⟨0, 5⟩⟩⟩
        ⟨Source.inline String.length "f.vhd" "hello world".toList,
          ⟨⟨0, 6⟩, ⟨0, 11⟩⟩⟩)
      (SrcPos.combine
        ⟨Source.inline String.length "f.vhd" "hello world".toList,
          ⟨⟨0, 6⟩, ⟨0, 11⟩⟩⟩
        ⟨Source.inline String.length "f.vhd" "hello world".toList,
          ⟨⟨0, 0⟩, ⟨0, 5⟩⟩⟩) = true :=
  (combine_comm_and_extremal
    ⟨Source.inline String.length "f.vhd" "hello world".toList,
      ⟨⟨0, 0⟩, ⟨0, 5⟩⟩⟩
    ⟨Source.inline String.length "f.vhd" "hello world".toList,
      ⟨⟨0, 6⟩, ⟨0, 11⟩⟩⟩ (by decide)).1

/-! ## C5: Source identity excludes content -/

/-- C5: two inline sources built with the same hash function are equal, with
equal hashes, exactly when their names are equal — the text plays no role —
and any `change` edit leaves both equality and hash untouched. -/
theorem source_identity_excludes_content (hashFn : String → Nat)
    (n₁ n₂ : String) (t₁ t₂ : List Char) :
    ((Source.eq (Source.inline hashFn n₁ t₁) (Source.inline hashFn n₂ t₂)
        = true ∧
      (Source.inline hashFn n₁ t₁).hashVal
        = (Source.inline hashFn n₂ t₂).hashVal) ↔ n₁ = n₂) ∧
    (∀ (r : Option Range) (c : List Char),
      Source.eq ((Source.inline hashFn n₁ t₁).change r c)
          (Source.inline hashFn n₂ t₂)
        = Source.eq (Source.inline hashFn n₁ t₁)
            (Source.inline hashFn n₂ t₂) ∧
      ((Source.inline hashFn n₁ t₁).change r c).hashVal
        = (Source.inline hashFn n₁ t₁).hashVal) := by
  constructor
  · constructor
    · rintro ⟨he, _⟩
      unfold Source.eq FileId.eq Source.inline FileId.new at he
      by_cases hh : hashFn n₁ = hashFn n₂
      · simp [hh] at he
        exact he
      · simp [hh] at he
    · rintro rfl
      unfold Source.eq FileId.eq Source.inline FileId.new Source.hashVal
      simp
  · intro r c
    cases r <;>
      simp [Source.change, Source.eq, Source.hashVal, Source.inline]

/-- Witness for C5: same name, different text — the sources are equal. -/
theorem source_identity_excludes_content_witness :
    ("a.vhd" : String) = "a.vhd" :=
  ((source_identity_excludes_content String.length "a.vhd" "a.vhd"
      "text one".toList "completely different".toList).1).mp (by decide)

/-! ## Helper lemmas about the position order -/

theorem posLe_line_le {a b : Position} (h : posLe a b) : a.line ≤ b.line := by
  rcases h with h | rfl
  · rcases h with h | ⟨h, _⟩ <;> omega
  · exact le_refl _

theorem posLt_trans_le {a b c : Position} (h1 : posLt a b) (h2 : posLe b c) :
    posLt a c := by
  rcases h2 with h2 | rfl
  · unfold posLt at *
    rcases h1 with h1 | ⟨e1, l1⟩ <;> rcases h2 with h2 | ⟨e2, l2⟩ <;> omega
  · exact h1

/-! ## C7: the concrete hello/world rendering scenario -/

/-- C7: for contents `"hello\nworld\n"` and the span `(0,0)-(0,5)`,
`code_context` renders line 1 with the ` --> ` arrow marker, an underline
row of exactly five `~` aligned under `hello`, and line 2 (`world`) as a
plain context line without an underline. -/
theorem code_context_hello_world :
    (SrcPos.mk
        (Source.inline String.length "file.vhd" "hello\nworld\n".toList)
        ⟨⟨0, 0⟩, ⟨0, 5⟩⟩).code_context
      = "1 --> hello\n   |  ~~~~~\n2  |  world\n".toList := by
  decide

/-! ## C8: get_line_context is clamped, omits missing lines, and is total -/

theorem mem_windowLines {c : Contents} {low cnt : Nat} {p : Nat × List Char} :
    p ∈ windowLines c low cnt ↔
      low ≤ p.1 ∧ p.1 < low + cnt ∧ c.get_line p.1 = some p.2 := by
  obtain ⟨a, b⟩ := p
  unfold windowLines
  rw [List.mem_filterMap]
  constructor
  · rintro ⟨i, hi, hf⟩
    rw [List.mem_range] at hi
    cases hg : c.get_line (low + i) with
    | none => rw [hg] at hf; cases hf
    | some l =>
      rw [hg] at hf
      injection hf with hf
      injection hf with hf1 hf2
      subst hf1
      subst hf2
      exact ⟨by omega, by omega, hg⟩
  · rintro ⟨h1, h2, h3⟩
    refine ⟨a - low, List.mem_range.mpr (by omega), ?_⟩
    have hla : low + (a - low) = a := by omega
    rw [hla, h3]

/-- C8: the context window of `get_line_context` saturates at the document
start, omits line numbers past the end of the document, falls back to one
synthetic empty line at the span's start line when no window line exists,
and is total: every entry returned either is an existing line inside the
clamped window or is the fallback entry, the fallback fires exactly when
the window holds no existing line, every existing window line is returned,
and the result is never empty. -/
theorem get_line_context_total_clamped (sp : SrcPos) (ctx : Nat)
    (c : Contents) :
    (sp.get_line_context ctx c ≠ []) ∧
    (∀ p ∈ sp.get_line_context ctx c,
      (c.get_line p.1 = some p.2 ∧ sp.range.start.line - ctx ≤ p.1 ∧
        p.1 ≤ sp.range.«end».line + ctx) ∨
      (p = (sp.range.start.line, []) ∧
        ∀ n, sp.range.start.line - ctx ≤ n → n ≤ sp.range.«end».line + ctx →
          c.get_line n = none)) ∧
    ((∀ n, sp.range.start.line - ctx ≤ n → n ≤ sp.range.«end».line + ctx →
        c.get_line n = none) →
      sp.get_line_context ctx c = [(sp.range.start.line, [])]) ∧
    (∀ n l, sp.range.start.line - ctx ≤ n → n ≤ sp.range.«end».line + ctx →
      c.get_line n = some l → (n, l) ∈ sp.get_line_context ctx c) := by
  have key : ∀ p : Nat × List Char,
      p ∈ windowLines c (sp.range.start.line - ctx)
          (sp.range.«end».line + ctx + 1 - (sp.range.start.line - ctx)) ↔
        (sp.range.start.line - ctx ≤ p.1 ∧ p.1 ≤ sp.range.«end».line + ctx ∧
          c.get_line p.1 = some p.2) := by
    intro p
    rw [mem_windowLines]
    constructor
    · rintro ⟨h1, h2, h3⟩
      exact ⟨by omega, by omega, h3⟩
    · rintro ⟨h1, h2, h3⟩
      exact ⟨by omega, by omega, h3⟩
  simp only [SrcPos.get_line_context]
  split
  case isTrue hE =>
    rw [List.isEmpty_iff] at hE
    have hnone : ∀ n, sp.range.start.line - ctx ≤ n →
        n ≤ sp.range.«end».line + ctx → c.get_line n = none := by
      intro n hn1 hn2
      cases hg : c.get_line n with
      | none => rfl
      | some l =>
        exfalso
        have : (n, l) ∈ windowLines c (sp.range.start.line - ctx)
            (sp.range.«end».line + ctx + 1 - (sp.range.start.line - ctx)) :=
          (key (n, l)).mpr ⟨hn1, hn2, hg⟩
        rw [hE] at this
        exact List.not_mem_nil _ this
    refine ⟨by simp, ?_, fun _ => rfl, ?_⟩
    · intro p hp
      rw [List.mem_singleton] at hp
      exact Or.inr ⟨hp, hnone⟩
    · intro n l hn1 hn2 hg
      exact absurd (hnone n hn1 hn2) (by simp [hg])
  case isFalse hE =>
    rw [Bool.not_eq_true, List.isEmpty_eq_false_iff_exists_mem] at hE
    refine ⟨?_, ?_, ?_, ?_⟩
    · rintro hnil
      obtain ⟨x, hx⟩ := hE
      rw [hnil] at hx
      exact List.not_mem_nil _ hx
    · intro p hp
      obtain ⟨h1, h2, h3⟩ := (key p).mp hp
      exact Or.inl ⟨h3, h1, h2⟩
    · intro hnone
      exfalso
      obtain ⟨x, hx⟩ := hE
      obtain ⟨h1, h2, h3⟩ := (key x).mp hx
      rw [hnone x.1 h1 h2] at h3
      cases h3
    · intro n l hn1 hn2 hg
      exact (key (n, l)).mpr ⟨hn1, hn2, hg⟩

/-- Witness for C8 at a concrete position past the end of the document (the
end-of-file fallback case). -/
theorem get_line_context_total_clamped_witness :
    (SrcPos.mk (Source.inline String.length "f.vhd" "hi\n".toList)
        ⟨⟨5, 0⟩, ⟨5, 1⟩⟩).get_line_context 2
        (Contents.fromText "hi\n".toList)
      = [(5, [])] :=
  (get_line_context_total_clamped
      (SrcPos.mk (Source.inline String.length "f.vhd" "hi\n".toList)
        ⟨⟨5, 0⟩, ⟨5, 1⟩⟩) 2 (Contents.fromText "hi\n".toList)).2.2.1
    (by decide)

/-! ## C10: display trimming versus full-span underlining -/

theorem underlineLoop_before (rng : Range) (lineno : Nat)
    (hlt : lineno < rng.«end».line) :
    ∀ (line : List Char) (col : Nat),
      underlineLoop rng lineno line col =
        (specPerChar rng lineno line col, col + line.length) := by
  intro line
  induction line with
  | nil => intro col; simp [underlineLoop, specPerChar]
  | cons ch rest ih =>
    intro col
    have hend : posLt ⟨lineno, col⟩ rng.«end» := Or.inl hlt
    by_cases hst : posLt ⟨lineno, col⟩ rng.start
    · simp only [underlineLoop, if_pos hst, ih (col + 1), specPerChar,
        specColMark, if_pos hst, List.length_cons]
      exact Prod.ext rfl (by omega)
    · simp only [underlineLoop, if_neg hst, if_pos hend, ih (col + 1),
        specPerChar, specColMark, if_neg hst, List.length_cons]
      exact Prod.ext rfl (by omega)

theorem underlineLoop_at_end (rng : Range) (lineno : Nat)
    (heq : lineno = rng.«end».line) (hse : posLe rng.start rng.«end») :
    ∀ (line : List Char) (col : Nat),
      underlineLoop rng lineno line col =
        (specPerChar rng lineno (line.take (rng.«end».character - col)) col,
         col + min line.length (rng.«end».character - col)) := by
  intro line
  induction line with
  | nil => intro col; simp [underlineLoop, specPerChar]
  | cons ch rest ih =>
    intro col
    by_cases hcol : col < rng.«end».character
    · have hend : posLt ⟨lineno, col⟩ rng.«end» := Or.inr ⟨heq, hcol⟩
      have htake : rng.«end».character - col
          = (rng.«end».character - (col + 1)) + 1 := by omega
      rw [htake]
      by_cases hst : posLt ⟨lineno, col⟩ rng.start
      · simp only [underlineLoop, if_pos hst, ih (col + 1),
          List.take_succ_cons, specPerChar, specColMark, if_pos hst,
          List.length_cons]
        exact Prod.ext rfl (by omega)
      · simp only [underlineLoop, if_neg hst, if_pos hend, ih (col + 1),
          List.take_succ_cons, specPerChar, specColMark, if_neg hst,
          List.length_cons]
        exact Prod.ext rfl (by omega)
    · have hend : ¬ posLt ⟨lineno, col⟩ rng.«end» := by
        subst heq
        unfold posLt
        simp only [not_or, not_and, not_lt]
        omega
      have hst : ¬ posLt ⟨lineno, col⟩ rng.start :=
        fun h => hend (posLt_trans_le h hse)
      have hz : rng.«end».character - col = 0 := by omega
      simp only [underlineLoop, if_neg hst, if_neg hend, hz, List.take_zero,
        specPerChar, List.length_cons]
      exact Prod.ext rfl (by omega)

theorem underlineLoop_after (rng : Range) (lineno : Nat)
    (hgt : rng.«end».line < lineno) (hse : posLe rng.start rng.«end») :
    ∀ (line : List Char) (col : Nat),
      underlineLoop rng lineno line col = ([], col) := by
  intro line col
  cases line with
  | nil => rfl
  | cons ch rest =>
    have hsl : rng.start.line ≤ rng.«end».line := posLe_line_le hse
    have hend : ¬ posLt ⟨lineno, col⟩ rng.«end» := by
      unfold posLt
      simp only [not_or, not_and, not_lt]
      omega
    have hst : ¬ posLt ⟨lineno, col⟩ rng.start := by
      unfold posLt
      simp only [not_or, not_and, not_lt]
      omega
    simp [underlineLoop, hst, hend]

theorem underlineRow_eq_spec (rng : Range) (ll lineno : Nat)
    (line : List Char) (hse : posLe rng.start rng.«end») :
    underlineRow rng ll lineno line =
      List.replicate ll ' ' ++ "  |  ".toList ++
        specUnderlineBody rng lineno line ++ ['\n'] := by
  unfold underlineRow specUnderlineBody
  rcases Nat.lt_trichotomy lineno rng.«end».line with h | h | h
  · rw [underlineLoop_before rng lineno h line 0]
    simp [h, Nat.ne_of_lt h]
  · rw [underlineLoop_at_end rng lineno h hse line 0]
    have hco : rng.«end».character - (0 + min line.length
        (rng.«end».character - 0)) = rng.«end».character - line.length := by
      omega
    simp only [hco, h, if_pos rfl, Nat.sub_zero, lt_irrefl, if_neg,
      if_false]
    simp [Nat.lt_irrefl]
    omega
  · rw [underlineLoop_after rng lineno h hse line 0]
    have h1 : ¬ lineno < rng.«end».line := by omega
    have h2 : ¬ lineno = rng.«end».line := by omega
    simp [h1, h2, specPerChar]

theorem dropWhile_append_of_all {p : Char → Bool} :
    ∀ {a b : List Char}, (∀ c ∈ a, p c = true) →
      (a ++ b).dropWhile p = b.dropWhile p := by
  intro a
  induction a with
  | nil => intro b _; rfl
  | cons c rest ih =>
    intro b h
    rw [List.cons_append, List.dropWhile_cons, if_pos (h c (by simp))]
    exact ih fun x hx => h x (by simp [hx])

theorem trimEnd_append_ws {line suffix : List Char}
    (h : ∀ c ∈ suffix, isRustWhitespace c = true) :
    trimEnd (line ++ suffix) = trimEnd line := by
  unfold trimEnd
  rw [List.reverse_append,
    dropWhile_append_of_all fun c hc => h c (List.mem_reverse.mp hc)]

/-- C10: in `code_context`'s output the displayed source line is stripped of
trailing whitespace (appending whitespace, tabs included, to a line does not
change its rendering), while the underline row beneath an intersecting line
is built from the untrimmed line: padding and `~` groups are emitted per
character of the untrimmed line with tabs counted as 4 columns, and on the
span's final line one additional width-one `~` per remaining character
position is appended past the end of the line's text until the span's end
column is reached — so the underline can be longer than the displayed line,
as the concrete conjuncts show on the line `"ab \t"` under the span
`(0,0)-(0,6)` (a 2-character display line with a 9-tilde underline). -/
theorem display_trims_underline_covers_span :
    (∀ (rng : Range) (ll lineno : Nat) (line : List Char),
      posLe rng.start rng.«end» →
      underlineRow rng ll lineno line =
        List.replicate ll ' ' ++ "  |  ".toList ++
          specUnderlineBody rng lineno line ++ ['\n']) ∧
    (∀ (line suffix : List Char),
      (∀ c ∈ suffix, isRustWhitespace c = true) →
      displayBody (line ++ suffix) = displayBody line) ∧
    (displayBody "ab \t".toList).length = 2 ∧
    List.count '~' (underlineRow ⟨⟨0, 0⟩, ⟨0, 6⟩⟩ 1 0 "ab \t".toList) = 9 := by
  refine ⟨?_, ?_, by decide, by decide⟩
  · intro rng ll lineno line hse
    exact underlineRow_eq_spec rng ll lineno line hse
  · intro line suffix h
    unfold displayBody
    rw [trimEnd_append_ws h]

/-- Witness for C10 on a concrete span and line with trailing whitespace. -/
theorem display_trims_underline_covers_span_witness :
    underlineRow ⟨⟨0, 0⟩, ⟨0, 6⟩⟩ 1 0 "ab \t".toList =
      List.replicate 1 ' ' ++ "  |  ".toList ++
        specUnderlineBody ⟨⟨0, 0⟩, ⟨0, 6⟩⟩ 0 "ab \t".toList ++ ['\n'] :=
  display_trims_underline_covers_span.1 ⟨⟨0, 0⟩, ⟨0, 6⟩⟩ 1 0 "ab \t".toList
    (by decide)

/-! ## Compositional lemmas for analyzer runs -/

theorem covers_okRun (o : Oracle) : Covers o [] okRun := by
  refine ⟨fun x hx => hx, fun _ => rfl, ?_⟩
  simp [okRun, Run.result, Run.trace]

theorem covers_step (o : Oracle) (ev : Event)
    (out : List Diagnostic × Except Fatal Unit)
    (hout : Event.outcome o ev = out.2) :
    Covers o [ev] (step ev out) := by
  refine ⟨fun x hx => hx, fun _ => rfl, ?_⟩
  simp only [step, Run.result, Run.trace, List.mem_singleton]
  constructor
  · rintro hok ev' rfl
    rw [hout, hok]
  · intro hall
    rw [← hout]
    exact hall ev rfl

theorem covers_seq {o : Oracle} {A B : List Event} {x y : Run}
    (hx : Covers o A x) (hy : Covers o B y) :
    Covers o (A ++ B) (seqRun x y) := by
  obtain ⟨xt, xd, xr⟩ := x
  obtain ⟨yt, yd, yr⟩ := y
  obtain ⟨hx1, hx2, hx3⟩ := hx
  obtain ⟨hy1, hy2, hy3⟩ := hy
  simp only [Run.trace, Run.result] at hx1 hx2 hx3 hy1 hy2 hy3
  cases xr with
  | ok u =>
    cases u
    have hxt : xt = A := hx2 rfl
    have hxall : ∀ ev ∈ xt, Event.outcome o ev = Except.ok () := hx3.mp rfl
    refine ⟨?_, ?_, ?_⟩
    · show xt ++ yt ⊆ A ++ B
      exact List.append_subset.mpr
        ⟨hx1.trans (List.subset_append_left _ _),
         hy1.trans (List.subset_append_right _ _)⟩
    · intro hok
      have hok' : yr = Except.ok () := hok
      show xt ++ yt = A ++ B
      rw [hxt, hy2 hok']
    · show yr = Except.ok () ↔ ∀ ev ∈ xt ++ yt, Event.outcome o ev = Except.ok ()
      constructor
      · intro hok ev hev
        rcases List.mem_append.mp hev with h | h
        · exact hxall ev h
        · exact (hy3.mp hok) ev h
      · intro hall
        exact hy3.mpr fun ev hev =>
          hall ev (List.mem_append.mpr (Or.inr hev))
  | error f =>
    refine ⟨?_, ?_, ?_⟩
    · show xt ⊆ A ++ B
      exact hx1.trans (List.subset_append_left _ _)
    · intro hok
      exact absurd hok (by simp [seqRun, Run.result])
    · show Except.error f = Except.ok () ↔
        ∀ ev ∈ xt, Event.outcome o ev = Except.ok ()
      constructor
      · intro hok; cases hok
      · intro hall
        have := hx3.mpr hall
        cases this

theorem covers_runAll {o : Oracle} {α : Type} (f : α → List Event)
    (g : α → Run) (h : ∀ a, Covers o (f a) (g a)) :
    ∀ l : List α, Covers o (l.flatMap f) (runAll (l.map g)) := by
  intro l
  induction l with
  | nil => exact covers_okRun o
  | cons a rest ih =>
    rw [List.flatMap_cons, List.map_cons]
    exact covers_seq (h a) ih

theorem covers_afe (o : Oracle) (ttyp : Option TypeEnt) (e : Expression) :
    Covers o [targetItemEvent ttyp e]
      (analyze_expression_for_target o ttyp e) := by
  cases ttyp <;> exact covers_step o _ _ rfl

theorem covers_callPlain (o : Oracle) (e : Expression) :
    Covers o [Event.plain e] (callPlain o e) :=
  covers_step o _ _ rfl

theorem covers_callChoices (o : Oracle) (cs : List Choice) :
    Covers o [Event.choice cs] (callChoices o cs) :=
  covers_step o _ _ rfl

theorem covers_wavf (o : Oracle) (w : Waveform) :
    Covers o (waveformEvents w) (analyze_waveform o w) := by
  cases w with
  | Unaffected => exact covers_okRun o
  | Elements elems =>
    simp only [analyze_waveform, waveformEvents]
    refine covers_runAll _ _ ?_ elems
    intro el
    have h2 : Covers o
        (match el.after with | some e => [Event.plain e] | none => [])
        (match el.after with | some e => callPlain o e | none => okRun) := by
      cases el.after with
      | some e => exact covers_callPlain o e
      | none => exact covers_okRun o
    exact covers_seq (covers_callPlain o el.value) h2

theorem covers_exprRhs (o : Oracle) (ttyp : Option TypeEnt)
    (rhs : AssignmentRightHand Expression) :
    Covers o (specExprVisitOrder ttyp rhs) (exprRhsRun o ttyp rhs) := by
  cases rhs with
  | Simple e => exact covers_afe o ttyp e
  | Conditional c =>
    have helse : Covers o
        (match c.else_item with
          | some e => [targetItemEvent ttyp e] | none => [])
        (match c.else_item with
          | some e => analyze_expression_for_target o ttyp e
          | none => okRun) := by
      cases c.else_item with
      | some e => exact covers_afe o ttyp e
      | none => exact covers_okRun o
    exact covers_seq
      (covers_runAll
        (fun arm => [targetItemEvent ttyp arm.item,
          Event.plain arm.condition])
        (fun arm => seqRun (analyze_expression_for_target o ttyp arm.item)
          (callPlain o arm.condition))
        (fun arm => covers_seq (covers_afe o ttyp arm.item)
          (covers_callPlain o arm.condition)) c.conditionals) helse
  | Selected s =>
    exact covers_seq (covers_callPlain o s.expression)
      (covers_runAll
        (fun alt => [targetItemEvent ttyp alt.item,
          Event.choice alt.choices])
        (fun alt => seqRun (analyze_expression_for_target o ttyp alt.item)
          (callChoices o alt.choices))
        (fun alt => covers_seq (covers_afe o ttyp alt.item)
          (covers_callChoices o alt.choices)) s.alternatives)

theorem covers_wavfRhs (o : Oracle) (rhs : AssignmentRightHand Waveform) :
    Covers o (wavfVisitOrder rhs) (wavfRhsRun o rhs) := by
  cases rhs with
  | Simple w => exact covers_wavf o w
  | Conditional c =>
    have helse : Covers o
        (match c.else_item with
          | some w => waveformEvents w | none => [])
        (match c.else_item with
          | some w => analyze_waveform o w
          | none => okRun) := by
      cases c.else_item with
      | some w => exact covers_wavf o w
      | none => exact covers_okRun o
    exact covers_seq
      (covers_runAll
        (fun arm => waveformEvents arm.item ++ [Event.plain arm.condition])
        (fun arm => seqRun (analyze_waveform o arm.item)
          (callPlain o arm.condition))
        (fun arm => covers_seq (covers_wavf o arm.item)
          (covers_callPlain o arm.condition)) c.conditionals) helse
  | Selected s =>
    exact covers_seq (covers_callPlain o s.expression)
      (covers_runAll
        (fun alt => waveformEvents alt.item ++ [Event.choice alt.choices])
        (fun alt => seqRun (analyze_waveform o alt.item)
          (callChoices o alt.choices))
        (fun alt => covers_seq (covers_wavf o alt.item)
          (covers_callChoices o alt.choices)) s.alternatives)

theorem analyze_expr_assignment_eq (o : Oracle) (tgt : TargetAst)
    (atyp : AssignmentType) (rhs : AssignmentRightHand Expression)
    (ttyp : Option TypeEnt)
    (h : (o.resolve_target tgt atyp).2 = Except.ok ttyp) :
    (analyze_expr_assignment o tgt atyp rhs).trace
      = (exprRhsRun o ttyp rhs).trace ∧
    (analyze_expr_assignment o tgt atyp rhs).result
      = (exprRhsRun o ttyp rhs).result := by
  constructor <;> simp [analyze_expr_assignment, h, Run.trace, Run.result]

theorem analyze_expr_assignment_err (o : Oracle) (tgt : TargetAst)
    (atyp : AssignmentType) (rhs : AssignmentRightHand Expression)
    (f : Fatal) (h : (o.resolve_target tgt atyp).2 = Except.error f) :
    (analyze_expr_assignment o tgt atyp rhs).trace = [] ∧
    (analyze_expr_assignment o tgt atyp rhs).result = Except.error f := by
  constructor <;> simp [analyze_expr_assignment, h, Run.trace, Run.result]

theorem analyze_waveform_assignment_eq (o : Oracle) (tgt : TargetAst)
    (atyp : AssignmentType) (rhs : AssignmentRightHand Waveform)
    (ttyp : Option TypeEnt)
    (h : (o.resolve_target tgt atyp).2 = Except.ok ttyp) :
    (analyze_waveform_assignment o tgt atyp rhs).trace
      = (wavfRhsRun o rhs).trace ∧
    (analyze_waveform_assignment o tgt atyp rhs).result
      = (wavfRhsRun o rhs).result := by
  constructor <;>
    simp [analyze_waveform_assignment, h, Run.trace, Run.result]

theorem analyze_waveform_assignment_err (o : Oracle) (tgt : TargetAst)
    (atyp : AssignmentType) (rhs : AssignmentRightHand Waveform)
    (f : Fatal) (h : (o.resolve_target tgt atyp).2 = Except.error f) :
    (analyze_waveform_assignment o tgt atyp rhs).trace = [] ∧
    (analyze_waveform_assignment o tgt atyp rhs).result
      = Except.error f := by
  constructor <;>
    simp [analyze_waveform_assignment, h, Run.trace, Run.result]

theorem targetItemEvent_eq_withTarget {ttyp : Option TypeEnt} {t : TypeEnt}
    {e x : Expression}
    (h : targetItemEvent ttyp x = Event.withTarget t e) : ttyp = some t := by
  cases ttyp with
  | none => exact absurd h (by simp [targetItemEvent])
  | some t' =>
    simp only [targetItemEvent, Event.withTarget.injEq] at h
    rw [h.1]

theorem mem_spec_withTarget {ttyp : Option TypeEnt} {t : TypeEnt}
    {e : Expression} {rhs : AssignmentRightHand Expression}
    (h : Event.withTarget t e ∈ specExprVisitOrder ttyp rhs) :
    ttyp = some t := by
  cases rhs with
  | Simple x =>
    simp only [specExprVisitOrder, List.mem_singleton] at h
    exact targetItemEvent_eq_withTarget h.symm
  | Conditional c =>
    simp only [specExprVisitOrder, List.mem_append] at h
    rcases h with h | h
    · rw [List.mem_flatMap] at h
      obtain ⟨arm, _, hm⟩ := h
      rcases List.mem_pair.mp hm with hm | hm
      · exact targetItemEvent_eq_withTarget hm.symm
      · exact absurd hm (by simp)
    · cases he : c.else_item with
      | some x =>
        rw [he] at h
        rw [List.mem_singleton] at h
        exact targetItemEvent_eq_withTarget h.symm
      | none =>
        rw [he] at h
        exact absurd h (List.not_mem_nil _)
  | Selected s =>
    simp only [specExprVisitOrder, List.mem_cons] at h
    rcases h with h | h
    · exact absurd h (by simp)
    · rw [List.mem_flatMap] at h
      obtain ⟨alt, _, hm⟩ := h
      rcases List.mem_pair.mp hm with hm | hm
      · exact targetItemEvent_eq_withTarget hm.symm
      · exact absurd hm (by simp)

theorem item_mem_spec {ttyp : Option TypeEnt} {e : Expression}
    {rhs : AssignmentRightHand Expression} (h : e ∈ rhs.items) :
    targetItemEvent ttyp e ∈ specExprVisitOrder ttyp rhs := by
  cases rhs with
  | Simple x =>
    simp only [AssignmentRightHand.items, List.mem_singleton] at h
    subst h
    simp [specExprVisitOrder]
  | Conditional c =>
    simp only [AssignmentRightHand.items, List.mem_append,
      List.mem_map] at h
    rcases h with ⟨arm, hmem, rfl⟩ | h
    · simp only [specExprVisitOrder, List.mem_append]
      left
      rw [List.mem_flatMap]
      exact ⟨arm, hmem, by simp⟩
    · cases he : c.else_item with
      | some x =>
        rw [he] at h
        simp only [List.mem_singleton] at h
        subst h
        simp only [specExprVisitOrder, List.mem_append, he]
        right
        simp
      | none =>
        rw [he] at h
        exact absurd h (List.not_mem_nil _)
  | Selected s =>
    simp only [AssignmentRightHand.items, List.mem_map] at h
    obtain ⟨alt, hmem, rfl⟩ := h
    simp only [specExprVisitOrder, List.mem_cons]
    right
    rw [List.mem_flatMap]
    exact ⟨alt, hmem, by simp⟩

theorem waveformEvents_untargeted {ev : Event} {w : Waveform}
    (h : ev ∈ waveformEvents w) : ev.isUntargeted = true := by
  cases w with
  | Unaffected => exact absurd h (List.not_mem_nil _)
  | Elements elems =>
    simp only [waveformEvents, List.mem_flatMap] at h
    obtain ⟨el, _, hm⟩ := h
    rcases List.mem_cons.mp hm with rfl | hm
    · rfl
    · cases ha : el.after with
      | some e =>
        rw [ha] at hm
        rw [List.mem_singleton] at hm
        subst hm
        rfl
      | none =>
        rw [ha] at hm
        exact absurd hm (List.not_mem_nil _)

theorem wavfVisitOrder_untargeted {ev : Event}
    {rhs : AssignmentRightHand Waveform} (h : ev ∈ wavfVisitOrder rhs) :
    ev.isUntargeted = true := by
  cases rhs with
  | Simple w => exact waveformEvents_untargeted h
  | Conditional c =>
    simp only [wavfVisitOrder, List.mem_append] at h
    rcases h with h | h
    · rw [List.mem_flatMap] at h
      obtain ⟨arm, _, hm⟩ := h
      rcases List.mem_append.mp hm with hm | hm
      · exact waveformEvents_untargeted hm
      · rw [List.mem_singleton] at hm
        subst hm
        rfl
    · cases he : c.else_item with
      | some w =>
        rw [he] at h
        exact waveformEvents_untargeted h
      | none =>
        rw [he] at h
        exact absurd h (List.not_mem_nil _)
  | Selected s =>
    simp only [wavfVisitOrder, List.mem_cons] at h
    rcases h with rfl | h
    · rfl
    · rw [List.mem_flatMap] at h
      obtain ⟨alt, _, hm⟩ := h
      rcases List.mem_append.mp hm with hm | hm
      · exact waveformEvents_untargeted hm
      · rw [List.mem_singleton] at hm
        subst hm
        rfl

theorem req_step {ev : Event} {out₁ out₂ : List Diagnostic × Except Fatal Unit}
    (h : out₁.2 = out₂.2) : REq (step ev out₁) (step ev out₂) := ⟨rfl, h⟩

theorem req_seq {x₁ y₁ x₂ y₂ : Run} (hx : REq x₁ x₂) (hy : REq y₁ y₂) :
    REq (seqRun x₁ y₁) (seqRun x₂ y₂) := by
  obtain ⟨x₁t, x₁d, x₁r⟩ := x₁
  obtain ⟨x₂t, x₂d, x₂r⟩ := x₂
  obtain ⟨y₁t, y₁d, y₁r⟩ := y₁
  obtain ⟨y₂t, y₂d, y₂r⟩ := y₂
  obtain ⟨ht, hr⟩ := hx
  obtain ⟨ht', hr'⟩ := hy
  simp only [Run.trace, Run.result] at ht hr ht' hr'
  subst ht
  subst hr
  subst ht'
  subst hr'
  cases x₁r with
  | ok u => exact ⟨rfl, rfl⟩
  | error f => exact ⟨rfl, rfl⟩

theorem req_runAll {α : Type} {g₁ g₂ : α → Run}
    (h : ∀ a, REq (g₁ a) (g₂ a)) :
    ∀ l : List α, REq (runAll (l.map g₁)) (runAll (l.map g₂)) := by
  intro l
  induction l with
  | nil => exact ⟨rfl, rfl⟩
  | cons a rest ih =>
    rw [List.map_cons, List.map_cons]
    exact req_seq (h a) ih

theorem req_afe {o₁ o₂ : Oracle} (h : agreeOnResults o₁ o₂)
    (ttyp : Option TypeEnt) (e : Expression) :
    REq (analyze_expression_for_target o₁ ttyp e)
      (analyze_expression_for_target o₂ ttyp e) := by
  cases ttyp with
  | none => exact req_step (h.2.2.2.1 e)
  | some t => exact req_step (h.2.2.1 t e)

theorem req_wavf {o₁ o₂ : Oracle} (h : agreeOnResults o₁ o₂) (w : Waveform) :
    REq (analyze_waveform o₁ w) (analyze_waveform o₂ w) := by
  cases w with
  | Unaffected => exact ⟨rfl, rfl⟩
  | Elements elems =>
    refine req_runAll ?_ elems
    intro el
    refine req_seq (req_step (h.2.1 el.value)) ?_
    cases el.after with
    | some e => exact req_step (h.2.1 e)
    | none => exact ⟨rfl, rfl⟩

theorem req_exprRhs {o₁ o₂ : Oracle} (h : agreeOnResults o₁ o₂)
    (ttyp : Option TypeEnt) (rhs : AssignmentRightHand Expression) :
    REq (exprRhsRun o₁ ttyp rhs) (exprRhsRun o₂ ttyp rhs) := by
  cases rhs with
  | Simple e => exact req_afe h ttyp e
  | Conditional c =>
    have helse : REq
        (match c.else_item with
          | some e => analyze_expression_for_target o₁ ttyp e
          | none => okRun)
        (match c.else_item with
          | some e => analyze_expression_for_target o₂ ttyp e
          | none => okRun) := by
      cases c.else_item with
      | some e => exact req_afe h ttyp e
      | none => exact ⟨rfl, rfl⟩
    exact req_seq
      (req_runAll (fun arm => req_seq (req_afe h ttyp arm.item)
        (req_step (h.2.1 arm.condition))) c.conditionals) helse
  | Selected s =>
    exact req_seq (req_step (h.2.1 s.expression))
      (req_runAll (fun alt => req_seq (req_afe h ttyp alt.item)
        (req_step (h.2.2.2.2 alt.choices))) s.alternatives)

theorem req_wavfRhs {o₁ o₂ : Oracle} (h : agreeOnResults o₁ o₂)
    (rhs : AssignmentRightHand Waveform) :
    REq (wavfRhsRun o₁ rhs) (wavfRhsRun o₂ rhs) := by
  cases rhs with
  | Simple w => exact req_wavf h w
  | Conditional c =>
    have helse : REq
        (match c.else_item with
          | some w => analyze_waveform o₁ w
          | none => okRun)
        (match c.else_item with
          | some w => analyze_waveform o₂ w
          | none => okRun) := by
      cases c.else_item with
      | some w => exact req_wavf h w
      | none => exact ⟨rfl, rfl⟩
    exact req_seq
      (req_runAll (fun arm => req_seq (req_wavf h arm.item)
        (req_step (h.2.1 arm.condition))) c.conditionals) helse
  | Selected s =>
    exact req_seq (req_step (h.2.1 s.expression))
      (req_runAll (fun alt => req_seq (req_wavf h alt.item)
        (req_step (h.2.2.2.2 alt.choices))) s.alternatives)

theorem req_expr_assignment {o₁ o₂ : Oracle} (h : agreeOnResults o₁ o₂)
    (tgt : TargetAst) (atyp : AssignmentType)
    (rhs : AssignmentRightHand Expression) :
    REq (analyze_expr_assignment o₁ tgt atyp rhs)
      (analyze_expr_assignment o₂ tgt atyp rhs) := by
  have hrt := h.1 tgt atyp
  cases hres : (o₁.resolve_target tgt atyp).2 with
  | error f =>
    have hres₂ : (o₂.resolve_target tgt atyp).2 = Except.error f := by
      rw [← hrt, hres]
    obtain ⟨t1, r1⟩ := analyze_expr_assignment_err o₁ tgt atyp rhs f hres
    obtain ⟨t2, r2⟩ := analyze_expr_assignment_err o₂ tgt atyp rhs f hres₂
    exact ⟨t1.trans t2.symm, r1.trans r2.symm⟩
  | ok ttyp =>
    have hres₂ : (o₂.resolve_target tgt atyp).2 = Except.ok ttyp := by
      rw [← hrt, hres]
    obtain ⟨t1, r1⟩ := analyze_expr_assignment_eq o₁ tgt atyp rhs ttyp hres
    obtain ⟨t2, r2⟩ := analyze_expr_assignment_eq o₂ tgt atyp rhs ttyp hres₂
    obtain ⟨tb, rb⟩ := req_exprRhs h ttyp rhs
    exact ⟨t1.trans (tb.trans t2.symm), r1.trans (rb.trans r2.symm)⟩

theorem req_wavf_assignment {o₁ o₂ : Oracle} (h : agreeOnResults o₁ o₂)
    (tgt : TargetAst) (atyp : AssignmentType)
    (rhs : AssignmentRightHand Waveform) :
    REq (analyze_waveform_assignment o₁ tgt atyp rhs)
      (analyze_waveform_assignment o₂ tgt atyp rhs) := by
  have hrt := h.1 tgt atyp
  cases hres : (o₁.resolve_target tgt atyp).2 with
  | error f =>
    have hres₂ : (o₂.resolve_target tgt atyp).2 = Except.error f := by
      rw [← hrt, hres]
    obtain ⟨t1, r1⟩ := analyze_waveform_assignment_err o₁ tgt atyp rhs f hres
    obtain ⟨t2, r2⟩ :=
      analyze_waveform_assignment_err o₂ tgt atyp rhs f hres₂
    exact ⟨t1.trans t2.symm, r1.trans r2.symm⟩
  | ok ttyp =>
    have hres₂ : (o₂.resolve_target tgt atyp).2 = Except.ok ttyp := by
      rw [← hrt, hres]
    obtain ⟨t1, r1⟩ :=
      analyze_waveform_assignment_eq o₁ tgt atyp rhs ttyp hres
    obtain ⟨t2, r2⟩ :=
      analyze_waveform_assignment_eq o₂ tgt atyp rhs ttyp hres₂
    obtain ⟨tb, rb⟩ := req_wavfRhs h rhs
    exact ⟨t1.trans (tb.trans t2.symm), r1.trans (rb.trans r2.symm)⟩

/-! ## C6: the analyzer's visitation order -/

/-- C6: under a successfully resolved target and a successful analysis, the
trace of collaborator calls of `analyze_expr_assignment` is exactly the
specified order: for a `Conditional`, per `(condition, item)` pair in source
order the item against the target type then the condition as a plain
expression, then the else item against the target type when present; for a
`Selected`, the selector as a plain expression first, then per alternative
in source order its item against the target type then its choices through
the choice-analysis routine. -/
theorem analyzer_visitation_order (o : Oracle) (tgt : TargetAst)
    (atyp : AssignmentType) (rhs : AssignmentRightHand Expression)
    (ttyp : Option TypeEnt)
    (hres : (o.resolve_target tgt atyp).2 = Except.ok ttyp)
    (hok : (analyze_expr_assignment o tgt atyp rhs).result = Except.ok ()) :
    (analyze_expr_assignment o tgt atyp rhs).trace
      = specExprVisitOrder ttyp rhs := by
  obtain ⟨ht, hr⟩ := analyze_expr_assignment_eq o tgt atyp rhs ttyp hres
  rw [ht]
  exact (covers_exprRhs o ttyp rhs).2.1 (hr ▸ hok)

/-- Witness for C6 on the concrete conditional right-hand side. -/
theorem analyzer_visitation_order_witness :
    (analyze_expr_assignment okOracle "x" AssignmentType.signal
        scenarioExprRhs).trace
      = specExprVisitOrder (some "bit") scenarioExprRhs :=
  analyzer_visitation_order okOracle "x" AssignmentType.signal
    scenarioExprRhs (some "bit") rfl rfl

/-! ## C2: the target type is broadcast into every alternative -/

/-- C2: once `analyze_expr_assignment` has resolved the target to the
optional type `ttyp`, every target-typed analysis call it makes carries
exactly that type, and — when the statement analysis succeeds — every
right-hand-side alternative (simple payload, every conditional arm item and
the else item, every selected alternative item) receives its item-analysis
call: with the resolved type when one exists, and as an untyped positional
analysis when resolution succeeded without a type (no branch skipped). -/
theorem target_type_broadcast (o : Oracle) (tgt : TargetAst)
    (atyp : AssignmentType) (rhs : AssignmentRightHand Expression)
    (ttyp : Option TypeEnt)
    (hres : (o.resolve_target tgt atyp).2 = Except.ok ttyp) :
    (∀ t e, Event.withTarget t e ∈
        (analyze_expr_assignment o tgt atyp rhs).trace → ttyp = some t) ∧
    ((analyze_expr_assignment o tgt atyp rhs).result = Except.ok () →
      ∀ e ∈ rhs.items,
        targetItemEvent ttyp e ∈
          (analyze_expr_assignment o tgt atyp rhs).trace) := by
  obtain ⟨ht, hr⟩ := analyze_expr_assignment_eq o tgt atyp rhs ttyp hres
  constructor
  · intro t e hmem
    rw [ht] at hmem
    exact mem_spec_withTarget ((covers_exprRhs o ttyp rhs).1 hmem)
  · intro hok e he
    rw [ht, (covers_exprRhs o ttyp rhs).2.1 (hr ▸ hok)]
    exact item_mem_spec he

/-- Witness for C2: on the concrete conditional assignment, the first
branch item `a` receives its `bit`-typed analysis call. -/
theorem target_type_broadcast_witness :
    targetItemEvent (some "bit") "a" ∈
      (analyze_expr_assignment okOracle "x" AssignmentType.signal
        scenarioExprRhs).trace :=
  (target_type_broadcast okOracle "x" AssignmentType.signal scenarioExprRhs
      (some "bit") rfl).2 rfl "a" (by decide)

/-! ## C3: success iff no fatal failure; diagnostics never alter control -/

/-- C3: both assignment analyzers return `Ok` exactly when target
resolution did not fail fatally and every collaborator call they made
returned `Ok` (a fatal failure from any sub-call aborts and propagates),
and the trace of calls made and the returned result are unchanged between
any two oracles that agree on results while pushing arbitrarily different
diagnostics — so recorded diagnostics never alter control flow or the
return value, and a branch that only records diagnostics does not prevent
later sibling branches from being analyzed. -/
theorem success_iff_no_fatal_and_diag_independent :
    (∀ (o : Oracle) (tgt : TargetAst) (atyp : AssignmentType)
        (rhs : AssignmentRightHand Expression),
      (analyze_expr_assignment o tgt atyp rhs).result = Except.ok () ↔
        (resolveOk o tgt atyp ∧
          ∀ ev ∈ (analyze_expr_assignment o tgt atyp rhs).trace,
            ev.outcome o = Except.ok ())) ∧
    (∀ (o : Oracle) (tgt : TargetAst) (atyp : AssignmentType)
        (rhs : AssignmentRightHand Waveform),
      (analyze_waveform_assignment o tgt atyp rhs).result = Except.ok () ↔
        (resolveOk o tgt atyp ∧
          ∀ ev ∈ (analyze_waveform_assignment o tgt atyp rhs).trace,
            ev.outcome o = Except.ok ())) ∧
    (∀ o₁ o₂, agreeOnResults o₁ o₂ →
      (∀ (tgt : TargetAst) (atyp : AssignmentType)
          (rhs : AssignmentRightHand Expression),
        REq (analyze_expr_assignment o₁ tgt atyp rhs)
          (analyze_expr_assignment o₂ tgt atyp rhs)) ∧
      (∀ (tgt : TargetAst) (atyp : AssignmentType)
          (rhs : AssignmentRightHand Waveform),
        REq (analyze_waveform_assignment o₁ tgt atyp rhs)
          (analyze_waveform_assignment o₂ tgt atyp rhs))) := by
  refine ⟨?_, ?_, ?_⟩
  · intro o tgt atyp rhs
    cases hres : (o.resolve_target tgt atyp).2 with
    | error f =>
      obtain ⟨ht, hr⟩ := analyze_expr_assignment_err o tgt atyp rhs f hres
      rw [hr]
      constructor
      · intro hok; cases hok
      · rintro ⟨⟨ttyp, hok⟩, _⟩
        rw [hres] at hok
        cases hok
    | ok ttyp =>
      obtain ⟨ht, hr⟩ := analyze_expr_assignment_eq o tgt atyp rhs ttyp hres
      rw [hr, ht]
      constructor
      · intro hok
        exact ⟨⟨ttyp, hres⟩, (covers_exprRhs o ttyp rhs).2.2.mp hok⟩
      · rintro ⟨_, hall⟩
        exact (covers_exprRhs o ttyp rhs).2.2.mpr hall
  · intro o tgt atyp rhs
    cases hres : (o.resolve_target tgt atyp).2 with
    | error f =>
      obtain ⟨ht, hr⟩ := analyze_waveform_assignment_err o tgt atyp rhs f hres
      rw [hr]
      constructor
      · intro hok; cases hok
      · rintro ⟨⟨ttyp, hok⟩, _⟩
        rw [hres] at hok
        cases hok
    | ok ttyp =>
      obtain ⟨ht, hr⟩ :=
        analyze_waveform_assignment_eq o tgt atyp rhs ttyp hres
      rw [hr, ht]
      constructor
      · intro hok
        exact ⟨⟨ttyp, hres⟩, (covers_wavfRhs o rhs).2.2.mp hok⟩
      · rintro ⟨_, hall⟩
        exact (covers_wavfRhs o rhs).2.2.mpr hall
  · intro o₁ o₂ h
    exact ⟨fun tgt atyp rhs => req_expr_assignment h tgt atyp rhs,
      fun tgt atyp rhs => req_wavf_assignment h tgt atyp rhs⟩

/-- Witness for C3: the concrete successful run is `Ok` by the
characterization. -/
theorem success_iff_no_fatal_and_diag_independent_witness :
    (analyze_expr_assignment okOracle "x" AssignmentType.signal
      scenarioExprRhs).result = Except.ok () :=
  (success_iff_no_fatal_and_diag_independent.1 okOracle "x"
      AssignmentType.signal scenarioExprRhs).mpr
    ⟨⟨some "bit", rfl⟩, by intro ev _; cases ev <;> rfl⟩

/-! ## C1: the waveform assignment does NOT propagate the target type -/

/-- C1 counterexample: in the concrete scenario
`x <= a when cond1 else b when cond2 else c;` with resolved target type
`bit`, the analyzer does not make 3 target-typed and 2 untargeted
expression-analysis calls as claimed — `analyze_waveform_assignment`
discards the resolved type, so the counts are 0 and 5. -/
theorem waveform_target_counts_counterexample :
    ¬ (countTargeted (analyze_waveform_assignment okOracle "x"
          AssignmentType.signal scenarioWavfRhs).trace = 3 ∧
       countPlain (analyze_waveform_assignment okOracle "x"
          AssignmentType.signal scenarioWavfRhs).trace = 2) := by
  decide

/-- C1 amended: `analyze_waveform_assignment` resolves the target but
discards the resolved type (`self.resolve_target(..)?;` binds nothing), so
every waveform element's value and every `after` delay expression — like
every condition — is analyzed untargeted: no run of the waveform assignment
analyzer ever performs a target-typed expression analysis, and in the
concrete scenario the untargeted `analyze_expression` is invoked exactly
five times, on `a`, `cond1`, `b`, `cond2`, `c` in that order, while
target-typed analysis is invoked zero times. -/
theorem waveform_values_analyzed_untargeted :
    (∀ (o : Oracle) (tgt : TargetAst) (atyp : AssignmentType)
        (rhs : AssignmentRightHand Waveform),
      ((analyze_waveform_assignment o tgt atyp rhs).trace.all
        Event.isUntargeted) = true) ∧
    (analyze_waveform_assignment okOracle "x" AssignmentType.signal
        scenarioWavfRhs).trace =
      [Event.plain "a", Event.plain "cond1", Event.plain "b",
       Event.plain "cond2", Event.plain "c"] ∧
    countTargeted (analyze_waveform_assignment okOracle "x"
        AssignmentType.signal scenarioWavfRhs).trace = 0 ∧
    countPlain (analyze_waveform_assignment okOracle "x"
        AssignmentType.signal scenarioWavfRhs).trace = 5 := by
  refine ⟨?_, by decide, by decide, by decide⟩
  intro o tgt atyp rhs
  rw [List.all_eq_true]
  intro ev hmem
  cases hres : (o.resolve_target tgt atyp).2 with
  | error f =>
    obtain ⟨ht, _⟩ := analyze_waveform_assignment_err o tgt atyp rhs f hres
    rw [ht] at hmem
    exact absurd hmem (List.not_mem_nil _)
  | ok ttyp =>
    obtain ⟨ht, _⟩ := analyze_waveform_assignment_eq o tgt atyp rhs ttyp hres
    rw [ht] at hmem
    exact wavfVisitOrder_untargeted ((covers_wavfRhs o rhs).1 hmem)
